import Mathlib

/-!
Verification of the RoBart navigation core against its specification.

Shallow embedding conventions:
* C `float` values are modelled as exact rationals (`ℚ`); the algorithms under
  study are structural (comparisons, floor, clamping) and are analysed in exact
  arithmetic.  Where the C++ code divides by zero in IEEE arithmetic
  (the Amanatides-Woo traversal), a dedicated `FloatVal` type models the
  resulting infinities and NaN together with IEEE comparison/addition.
* `size_t` values are modelled as `Nat`; conversions of possibly negative
  `int`/`long` expressions into `size_t` are made explicit with `toSizeT`
  (reduction modulo 2^64).
* In-place mutation is modelled by returning the updated state; pixel-buffer
  memory is modelled as a total function from element index to value, and a
  possibly-null base pointer as an `Option` of such a function.
* C++ loops whose bound is not structural are given explicit fuel; the fuel
  chosen by each caller dominates the number of iterations the C++ loop can
  perform, and every theorem below depends only on iterations that are reached.
-/

/-- `size_t` conversion of a signed integer value: reduction modulo `2^64`. -/
def toSizeT (i : Int) : Nat := (i % (2 ^ 64 : Int)).toNat

/-- `floor` on ℚ, computed through `Rat.floor` so that concrete inputs
evaluate; equal to `Int.floor` (see `ratFloor_eq_intFloor`). -/
def floorQ (q : ℚ) : Int := q.floor

/-- C `round` (half away from zero) on the nonnegative arguments it receives
here: `⌊q + 1/2⌋`. -/
def roundQ (q : ℚ) : Int := floorQ (q + 1/2)

/-! ## Box2D (BoxDepth.hpp) -/

/-- 2D axis-aligned box in pixel coordinates, `struct Box2D` of `BoxDepth.hpp`. -/
structure Box2D where
  x : Int
  y : Int
  width : Int
  height : Int
deriving DecidableEq, Repr, Inhabited

namespace Box2D

/-- `Box2D::overlaps`, embedded exactly as written in the source — including
the comparison of `other.y` against `y + width` on the last branch. -/
def overlaps (self other : Box2D) : Bool :=
  !((self.x ≥ other.x + other.width) ||
    (self.y ≥ other.y + other.height) ||
    (other.x ≥ self.x + self.width) ||
    (other.y ≥ self.y + self.width))

/-- `Box2D::mergeWith`: replaces `self` with the enclosing box; modelled as a
function returning the updated box. -/
def mergeWith (self other : Box2D) : Box2D :=
  let x1 := min self.x other.x
  let y1 := min self.y other.y
  let x2 := max (self.x + self.width - 1) (other.x + other.width - 1)
  let y2 := max (self.y + self.height - 1) (other.y + other.height - 1)
  let newWidth := x2 - x1 + 1
  let newHeight := y2 - y1 + 1
  { x := x1, y := y1, width := newWidth, height := newHeight }

/-- Modelled from the spec: the two rectangles intersect on both axes, each
box treated as half-open on its +x/+y side. -/
def intersectsSpec (a b : Box2D) : Bool :=
  (a.x < b.x + b.width) && (b.x < a.x + a.width) &&
  (a.y < b.y + b.height) && (b.y < a.y + a.height)

/-- Interval containment of boxes: every pixel column/row spanned by `inner`
is spanned by `outer`. -/
def containsBox (outer inner : Box2D) : Prop :=
  outer.x ≤ inner.x ∧ outer.y ≤ inner.y ∧
  inner.x + inner.width ≤ outer.x + outer.width ∧
  inner.y + inner.height ≤ outer.y + outer.height

instance (outer inner : Box2D) : Decidable (containsBox outer inner) := by
  unfold containsBox; infer_instance

end Box2D

/-! ## OccupancyMap (OccupancyMap.hpp / OccupancyMap.cpp)

The C++ object state relevant to the verified operations: grid dimensions,
cell side, the constructor's `_centerPoint`, the world position stored at the
center cell (`_worldPosition[centerIndex()]`, the only element of
`_worldPosition` the verified operations read), and the cell-value storage.
Storage is modelled as a total function from linear index to value, which
also gives out-of-range reads a definite (arbitrary but fixed) value. -/

structure OccupancyMap where
  cellsWide : Nat
  cellsDeep : Nat
  cellSide : ℚ
  /-- `_centerPoint`, restricted to its (x, z) components (y is never read). -/
  centerPoint : ℚ × ℚ
  /-- `_worldPosition[centerIndex()]`, (x, z) components. -/
  gridCenterPoint : ℚ × ℚ
  /-- `_occupancy`, indexed linearly. -/
  occupancy : Nat → ℚ

/-- Integral cell indices (`OccupancyMap::CellIndices`): `(cellX, cellZ)`. -/
abbrev CellIndices : Type := Nat × Nat

namespace OccupancyMap

/-- `OccupancyMap::centerCell`: `size_t(round(float(n) * 0.5))` per axis.
`round` on a nonnegative value rounds half up, which is Mathlib's `round`. -/
def centerCell (m : OccupancyMap) : CellIndices :=
  ((roundQ ((m.cellsWide : ℚ) * (1/2))).toNat, (roundQ ((m.cellsDeep : ℚ) * (1/2))).toNat)

/-- `OccupancyMap::linearIndex(cellX, cellZ)`: clamps each index and uses
`_cellsDeep` as the stride (the source's convention). -/
def linearIndex (m : OccupancyMap) (cellX cellZ : Nat) : Nat :=
  (min cellZ (m.cellsDeep - 1)) * m.cellsDeep + min cellX (m.cellsWide - 1)

/-- `OccupancyMap::at(cellX, cellZ)` for `size_t` arguments. -/
def atCell (m : OccupancyMap) (cellX cellZ : Nat) : ℚ :=
  m.occupancy (m.linearIndex cellX cellZ)

/-- `OccupancyMap::at(x, z)` as called with `int` arguments (implicit
`int → size_t` conversion at the call site). -/
def atInt (m : OccupancyMap) (x z : Int) : ℚ :=
  m.atCell (toSizeT x) (toSizeT z)

/-- Clamp of a signed index into `[0, n-1]`:
`std::min(size_t(std::max(long(0), i)), n - 1)`. -/
def clampIndex (i : Int) (n : Nat) : Nat :=
  min (max 0 i).toNat (n - 1)

/-- `OccupancyMap::positionToCell` (x and z components of the position). -/
def positionToCell (m : OccupancyMap) (position : ℚ × ℚ) : CellIndices :=
  let center := m.centerCell
  let xi : Int := floorQ ((position.1 - m.gridCenterPoint.1) / m.cellSide + 1/2) + (center.1 : Int)
  let zi : Int := floorQ ((position.2 - m.gridCenterPoint.2) / m.cellSide + 1/2) + (center.2 : Int)
  (clampIndex xi m.cellsWide, clampIndex zi m.cellsDeep)

/-- `OccupancyMap::positionToFractionalIndices`. -/
def positionToFractionalIndices (m : OccupancyMap) (position : ℚ × ℚ) : ℚ × ℚ :=
  let center := m.centerCell
  let xf : ℚ := (position.1 - m.gridCenterPoint.1) / m.cellSide + (center.1 : ℚ)
  let zf : ℚ := (position.2 - m.gridCenterPoint.2) / m.cellSide + (center.2 : ℚ)
  (min (max (-(1/2)) xf) ((m.cellsWide - 1 : Nat) + 1/2),
   min (max (-(1/2)) zf) ((m.cellsDeep - 1 : Nat) + 1/2))

/-- `OccupancyMap::numCells`. -/
def numCells (m : OccupancyMap) : Nat := m.cellsWide * m.cellsDeep

/-- One iteration of the loop body of `OccupancyMap::updateOccupancyFromCounts`
applied to linear index `i`. -/
def updateCountStep (counts : OccupancyMap) (thresholdAmount : ℚ)
    (occ : Nat → ℚ) (i : Nat) : Nat → ℚ :=
  if counts.occupancy i ≥ thresholdAmount then
    fun j => if j = i then 1 else occ j
  else occ

/-- The loop of `updateOccupancyFromCounts` over the first `n` linear indices,
in ascending order: `go (i+1)` runs the body at index `i` after `go i`. -/
def updateCountsLoop (counts : OccupancyMap) (thresholdAmount : ℚ)
    (occ : Nat → ℚ) : Nat → Nat → ℚ
  | 0 => occ
  | i + 1 => updateCountStep counts thresholdAmount
      (updateCountsLoop counts thresholdAmount occ i) i

/-- `OccupancyMap::updateOccupancyFromCounts`, modelled as returning the
updated map. -/
def updateOccupancyFromCounts (m : OccupancyMap) (counts : OccupancyMap)
    (thresholdAmount : ℚ) : OccupancyMap :=
  { m with occupancy := updateCountsLoop counts thresholdAmount m.occupancy counts.numCells }

end OccupancyMap

/-! ## IEEE float values for the Amanatides-Woo traversal

`isLineUnobstructed` divides by `vx`/`vz`, which are zero for degenerate
directions; IEEE single-precision then yields ±∞ or NaN.  `FloatVal` models a
float as an exact rational, an infinity, or NaN, with IEEE division by a
rational, addition, and `<`. -/

inductive FloatVal where
  | fin (q : ℚ)
  | posInf
  | negInf
  | nan
deriving DecidableEq, Repr

namespace FloatVal

/-- IEEE quotient of two rationals (covering division by zero). -/
def divQ (num den : ℚ) : FloatVal :=
  if den = 0 then
    if num > 0 then posInf else if num < 0 then negInf else nan
  else fin (num / den)

/-- IEEE addition. -/
def add : FloatVal → FloatVal → FloatVal
  | fin a, fin b => fin (a + b)
  | fin _, posInf => posInf
  | fin _, negInf => negInf
  | posInf, fin _ => posInf
  | negInf, fin _ => negInf
  | posInf, posInf => posInf
  | negInf, negInf => negInf
  | posInf, negInf => nan
  | negInf, posInf => nan
  | nan, _ => nan
  | _, nan => nan

/-- IEEE `<` (false whenever either operand is NaN). -/
def lt : FloatVal → FloatVal → Bool
  | fin a, fin b => a < b
  | fin _, posInf => true
  | fin _, negInf => false
  | fin _, nan => false
  | posInf, _ => false
  | negInf, negInf => false
  | negInf, nan => false
  | negInf, _ => true
  | nan, _ => false

end FloatVal

namespace OccupancyMap

/-- `sign` helper of OccupancyMap.cpp: `(value > 0) - (value < 0)`. -/
def qsign (value : ℚ) : Int :=
  (if value > 0 then 1 else 0) - (if value < 0 then 1 else 0)

/-- The do-while loop of `isLineUnobstructed`.  `fuel` bounds the number of
iterations; every theorem below depends only on iterations that are reached
(for the degenerate segment the loop exits after its first iteration). -/
def losLoop (m : OccupancyMap) (xEnd zEnd stepX stepZ : Int)
    (tDeltaX tDeltaZ : FloatVal) :
    Nat → Int → Int → FloatVal → FloatVal → Bool
  | 0, _, _, _, _ => true
  | fuel + 1, x, z, tMaxX, tMaxZ =>
    if m.atInt x z ≠ 0 then
      false
    else
      let next :=
        if FloatVal.lt tMaxX tMaxZ then
          (x + stepX, z, FloatVal.add tMaxX tDeltaX, tMaxZ)
        else
          (x, z + stepZ, tMaxX, FloatVal.add tMaxZ tDeltaZ)
      if next.1 ≠ xEnd ∧ next.2.1 ≠ zEnd then
        losLoop m xEnd zEnd stepX stepZ tDeltaX tDeltaZ fuel
          next.1 next.2.1 next.2.2.1 next.2.2.2
      else
        true

/-- `OccupancyMap::isLineUnobstructed`.  The fuel passed to the loop dominates
the cell count of any terminating C++ traversal. -/
def isLineUnobstructed (m : OccupancyMap) (fromPos toPos : ℚ × ℚ) : Bool :=
  let fromCell := m.positionToFractionalIndices fromPos
  let toCell := m.positionToFractionalIndices toPos
  let ux := fromCell.1
  let uz := fromCell.2
  let vx := toCell.1 - ux
  let vz := toCell.2 - uz
  let x : Int := floorQ (ux + 1/2)
  let z : Int := floorQ (uz + 1/2)
  let stepX := qsign vx
  let stepZ := qsign vz
  let xEnd : Int := floorQ (toCell.1 + 1/2) + stepX
  let zEnd : Int := floorQ (toCell.2 + 1/2) + stepZ
  let tMaxX := FloatVal.divQ (((x : ℚ) + (1/2) * (stepX : ℚ)) - ux) vx
  let tMaxZ := FloatVal.divQ (((z : ℚ) + (1/2) * (stepZ : ℚ)) - uz) vz
  let tDeltaX := FloatVal.divQ (stepX : ℚ) vx
  let tDeltaZ := FloatVal.divQ (stepZ : ℚ) vz
  losLoop m xEnd zEnd stepX stepZ tDeltaX tDeltaZ
    (m.cellsWide + m.cellsDeep + 2) x z tMaxX tMaxZ

end OccupancyMap

/-! ## Path finding (FindPath.cpp) -/

namespace FindPath

open OccupancyMap

/-- `computeFootprintSideLengthInCells`.  `cellsOut` is a `size_t`
subtraction, hence the `toSizeT` of the signed difference. -/
def computeFootprintSideLengthInCells (occupancy : OccupancyMap)
    (robotRadius : ℚ) : Nat :=
  if occupancy.cellsWide * occupancy.cellsDeep ≤ 1 then 1
  else
    let center := occupancy.positionToCell occupancy.centerPoint
    let limit := occupancy.positionToCell
      (occupancy.centerPoint.1 + robotRadius, occupancy.centerPoint.2)
    let cellsOut := toSizeT ((limit.1 : Int) - (center.1 : Int))
    1 + 2 * cellsOut

/-- `isCellSafe`: the clipped `L × L` block centred on `cell` contains no
occupied cell.  The C++ loop returns `false` at the first occupied cell;
`List.all` over the same index ranges computes the same value. -/
def isCellSafe (occupancy : OccupancyMap) (cell : CellIndices)
    (robotFootprintSideLength : Nat) : Bool :=
  let delta := robotFootprintSideLength / 2
  let cellXMin := cell.1 - delta
  let cellXMax := min (cell.1 + delta) (occupancy.cellsWide - 1)
  let cellZMin := cell.2 - delta
  let cellZMax := min (cell.2 + delta) (occupancy.cellsDeep - 1)
  (List.range' cellZMin (cellZMax + 1 - cellZMin)).all fun cellZ =>
    (List.range' cellXMin (cellXMax + 1 - cellXMin)).all fun cellX =>
      decide (occupancy.atCell cellX cellZ = 0)

/-- `getUnoccupiedNeighbors`: the safe 4-neighbours in source order
(left, right, front, back). -/
def getUnoccupiedNeighbors (occupancy : OccupancyMap) (cell : CellIndices)
    (robotFootprintSideLength : Nat) : List CellIndices :=
  let x := cell.1
  let z := cell.2
  let left : CellIndices := (x - 1, z)
  let right : CellIndices := (x + 1, z)
  let front : CellIndices := (x, z - 1)
  let back : CellIndices := (x, z + 1)
  (if x > 0 && isCellSafe occupancy left robotFootprintSideLength then [left] else []) ++
  (if x < occupancy.cellsWide - 1 && isCellSafe occupancy right robotFootprintSideLength then [right] else []) ++
  (if z > 0 && isCellSafe occupancy front robotFootprintSideLength then [front] else []) ++
  (if z < occupancy.cellsDeep - 1 && isCellSafe occupancy back robotFootprintSideLength then [back] else [])

/-- The predecessor map `transitions`; keys are inserted at most once, so an
association list with first-match lookup models `std::unordered_map`. -/
abbrev TransMap : Type := List (CellIndices × CellIndices)

/-- Outcome of the breadth-first loop. -/
inductive BfsResult where
  | found (transitions : TransMap)
  | exhausted
  | fuelOut
deriving DecidableEq, Repr

/-- The `for (auto neighbor : neighbors)` body: skip visited neighbours,
record the transition, stop when `src` is reached (`goto foundCompletePath`),
otherwise push onto the frontier.  Returns the updated transitions, the
updated frontier, and whether `src` was reached. -/
def processNeighbors (src cell : CellIndices) :
    List CellIndices → TransMap → List CellIndices → TransMap × List CellIndices × Bool
  | [], transitions, frontier => (transitions, frontier, false)
  | neighbor :: rest, transitions, frontier =>
    if (transitions.lookup neighbor).isSome then
      processNeighbors src cell rest transitions frontier
    else
      let transitions' := (neighbor, cell) :: transitions
      if neighbor = src then (transitions', frontier, true)
      else processNeighbors src cell rest transitions' (frontier ++ [neighbor])

/-- The `while (!frontier.empty())` loop of `findPath`.  The fuel passed by
`findPath` dominates the number of iterations (each iteration pops one cell,
and at most one cell per distinct in-range key is ever pushed). -/
def bfsLoop (occupancy : OccupancyMap) (src : CellIndices)
    (robotFootprintSideLength : Nat) :
    Nat → List CellIndices → TransMap → BfsResult
  | 0, _, _ => .fuelOut
  | _ + 1, [], _ => .exhausted
  | fuel + 1, cell :: frontier, transitions =>
    let neighbors := getUnoccupiedNeighbors occupancy cell robotFootprintSideLength
    let step := processNeighbors src cell neighbors transitions frontier
    if step.2.2 then .found step.1
    else bfsLoop occupancy src robotFootprintSideLength fuel step.2.1 step.1

/-- The path-reconstruction do-while of `findPath` (label
`foundCompletePath`).  State mirrors the C++ locals; `path` grows at the back
(`emplace_back`), `pop_back` is `dropLast`.  On a missing transition the C++
code clears the path and breaks, after which `dest` is still appended, so the
result is `[dest]`.  Fuel exhaustion (unreachable for an acyclic predecessor
chain) returns the path built so far with `dest` appended. -/
def reconstructLoop (transitions : TransMap) (dest : CellIndices) :
    Nat → CellIndices → CellIndices → Bool → Bool → Bool → List CellIndices →
    List CellIndices
  | 0, _, _, _, _, _, path => path ++ [dest]
  | fuel + 1, currentStep, prevStep, haveDir, movingAlongX, movingAlongZ, path =>
    let state :=
      if haveDir then
        let dirWillChange := (movingAlongX && decide (currentStep.2 ≠ prevStep.2)) ||
                             (movingAlongZ && decide (currentStep.1 ≠ prevStep.1))
        if !dirWillChange then
          (if path.length > 1 then path.dropLast else path, movingAlongX, movingAlongZ, haveDir)
        else
          (path, decide (currentStep.2 = prevStep.2), decide (currentStep.1 = prevStep.1), haveDir)
      else
        if path.length = 1 then
          (path, decide (currentStep.2 = prevStep.2), decide (currentStep.1 = prevStep.1), true)
        else
          (path, movingAlongX, movingAlongZ, haveDir)
    let path' := state.1 ++ [currentStep]
    match transitions.lookup currentStep with
    | none => [dest]
    | some nextStep =>
      if nextStep ≠ dest then
        reconstructLoop transitions dest fuel nextStep currentStep
          state.2.2.2 state.2.1 state.2.2.1 path'
      else
        path' ++ [dest]

/-- `findPath`. -/
def findPath (occupancy : OccupancyMap) (fromPos toPos : ℚ × ℚ)
    (robotRadius : ℚ) : List CellIndices :=
  let robotFootprintSideLength := computeFootprintSideLengthInCells occupancy robotRadius
  let dest := occupancy.positionToCell toPos
  let src := occupancy.positionToCell fromPos
  if occupancy.atCell dest.1 dest.2 ≠ 0 then []
  else if dest = src then [src]
  else
    match bfsLoop occupancy src robotFootprintSideLength
        (occupancy.numCells + 1) [dest] [(dest, dest)] with
    | .exhausted => []
    | .fuelOut => []
    | .found transitions =>
      reconstructLoop transitions dest (transitions.length + 1)
        src src false false false []

end FindPath

/-! ## Depth-map confidence filter (FilterDepthMap.cpp)

A pixel buffer is its dimensions, its row stride in elements, and its memory,
a total function from element index to value; a possibly-null base pointer is
an `Option` of the memory.  Depth elements are rationals, confidence elements
bytes (`Nat`). -/

namespace FilterDepthMap

/-- Pointwise store into linear memory. -/
def store (mem : Nat → ℚ) (i : Nat) (v : ℚ) : Nat → ℚ :=
  fun j => if j = i then v else mem j

/-- The fast-path loop (`offsetToNextLine` both zero): filter the first `n`
elements linearly, in ascending order. -/
def filterLinear (confidenceValues : Nat → Nat) (minimumConfidence : Nat)
    (depthValues : Nat → ℚ) : Nat → Nat → ℚ
  | 0 => depthValues
  | i + 1 =>
    let d := filterLinear confidenceValues minimumConfidence depthValues i
    if confidenceValues i < minimumConfidence then store d i (1000000 : ℚ) else d

/-- The slow-path inner loop: filter the first `x` pixels of row `y`, whose
depth element index is `y * depthStride + x` and confidence element index
`y * confidenceStride + x` (the running pointers of the source). -/
def filterRow (confidenceValues : Nat → Nat) (minimumConfidence : Nat)
    (depthStride confidenceStride y : Nat) (depthValues : Nat → ℚ) :
    Nat → Nat → ℚ
  | 0 => depthValues
  | x + 1 =>
    let d := filterRow confidenceValues minimumConfidence depthStride confidenceStride y depthValues x
    if confidenceValues (y * confidenceStride + x) < minimumConfidence then
      store d (y * depthStride + x) (1000000 : ℚ)
    else d

/-- The slow-path outer loop: filter the first `y` rows, each of `width`
pixels. -/
def filterRows (confidenceValues : Nat → Nat) (minimumConfidence : Nat)
    (width depthStride confidenceStride : Nat) (depthValues : Nat → ℚ) :
    Nat → Nat → ℚ
  | 0 => depthValues
  | y + 1 =>
    filterRow confidenceValues minimumConfidence depthStride confidenceStride y
      (filterRows confidenceValues minimumConfidence width depthStride confidenceStride depthValues y)
      width

/-- `filterDepthMap`.  `depthStride`/`confidenceStride` are
`bytesPerRow / element size` of the two buffers; the null-base-pointer check
precedes any write, so a `none` on either side returns the depth memory
unchanged. -/
def filterDepthMap (depthBase : Option (Nat → ℚ)) (confidenceBase : Option (Nat → Nat))
    (width height depthStride confidenceStride : Nat) (minimumConfidence : Nat) :
    Option (Nat → ℚ) :=
  let offsetToNextLineDepthMap := depthStride - width
  let offsetToNextLineConfidenceMap := confidenceStride - width
  match depthBase, confidenceBase with
  | some depthValues, some confidenceValues =>
    if offsetToNextLineDepthMap = 0 ∧ offsetToNextLineConfidenceMap = 0 then
      some (filterLinear confidenceValues minimumConfidence depthValues (width * height))
    else
      some (filterRows confidenceValues minimumConfidence width depthStride
        confidenceStride depthValues height)
  | some depthValues, none => some depthValues
  | none, _ => none

end FilterDepthMap

/-! ## Per-box mean depth (BoxDepth.cpp) -/

/-- A depth pixel buffer: dimensions, row stride in `float` elements, and
memory. -/
structure DepthImage where
  width : Nat
  height : Nat
  stride : Nat
  data : Nat → ℚ

namespace BoxDepth

/-- Accumulation state of the averaging loops: running sum and pixel count. -/
def accumRow (img : DepthImage) (maximumDepth : ℚ) (yi : Nat) (x0 : Nat)
    (acc : ℚ × Nat) : Nat → ℚ × Nat
  | 0 => acc
  | k + 1 =>
    let acc' := accumRow img maximumDepth yi x0 acc k
    let depth := img.data (yi * img.stride + (x0 + k))
    if depth ≤ maximumDepth then (acc'.1 + depth, acc'.2 + 1) else acc'

/-- The outer loop over rows `y0 .. y0 + k - 1` of the clipped box. -/
def accumBox (img : DepthImage) (maximumDepth : ℚ) (x0 y0 w : Nat)
    (acc : ℚ × Nat) : Nat → ℚ × Nat
  | 0 => acc
  | k + 1 =>
    accumRow img maximumDepth (y0 + k) x0
      (accumBox img maximumDepth x0 y0 w acc k) w

/-- `computeAverageDepthOfBoundingBox`.  The first two early-out comparisons
convert the signed `box.x`/`box.y` to `size_t` (`box.x >= depthWidth` with a
`size_t` right operand), which is made explicit with `toSizeT`. -/
def computeAverageDepthOfBoundingBox (box : Box2D) (img : DepthImage)
    (maximumDepth : ℚ) : ℚ :=
  if toSizeT box.x ≥ img.width ∨ toSizeT box.y ≥ img.height ∨
      box.x + box.width ≤ 0 ∨ box.y + box.height ≤ 0 then
    -1
  else
    let bx : Int := max 0 box.x
    let by' : Int := max 0 box.y
    let bw : Int := min ((img.width : Int) - bx) box.width
    let bh : Int := min ((img.height : Int) - by') box.height
    let acc := accumBox img maximumDepth bx.toNat by'.toNat bw.toNat (0, 0) bh.toNat
    if acc.2 = 0 then -1 else acc.1 / (acc.2 : ℚ)

/-- Modelled from the spec: some pixel of the box clipped to the image
rectangle has a value `≤ maximumDepth`. -/
def clippedBoxHasValidPixel (box : Box2D) (img : DepthImage)
    (maximumDepth : ℚ) : Prop :=
  ∃ xi yi : Nat, (box.x ≤ xi ∧ (xi : Int) < box.x + box.width ∧ xi < img.width) ∧
    (box.y ≤ yi ∧ (yi : Int) < box.y + box.height ∧ yi < img.height) ∧
    img.data (yi * img.stride + xi) ≤ maximumDepth

end BoxDepth

/-! ## Human instancing (HumanInstancing.cpp) -/

/-- A segmentation pixel buffer: dimensions, bytes per row, and byte memory. -/
structure SegmentationMask where
  width : Nat
  height : Nat
  bytesPerRow : Nat
  data : Nat → Nat

namespace HumanInstancing

/-- `findOverlappingBoxIndex`: index of the first box of `humans` that
`box.overlaps`; the C++ `-1` is modelled as `none`. -/
def findOverlappingBoxIndex (humans : List Box2D) (box : Box2D) : Option Nat :=
  match humans with
  | [] => none
  | h :: t =>
    if box.overlaps h then some 0
    else (findOverlappingBoxIndex t box).map (· + 1)

/-- `neighborWindowSize` of `findHumans`. -/
def neighborWindowSize : Int := 17

/-- `offset = neighborWindowSize / 2`. -/
def windowOffset : Int := neighborWindowSize / 2

/-- Pass-1 body for one human pixel at `(xi, yi)`: search for a box
overlapping the `17 × 17` neighbourhood; if none, append a fresh 1×1 box;
otherwise grow the found box to enclose the pixel and swap it with the head
of the list (`humans[humanIdx] = humans[0]; humans[0] = existingBox`). -/
def scanStep (humans : List Box2D) (xi yi : Int) : List Box2D :=
  let neighborhood : Box2D :=
    { x := xi - windowOffset, y := yi - windowOffset,
      width := neighborWindowSize, height := neighborWindowSize }
  match findOverlappingBoxIndex humans neighborhood with
  | none => humans ++ [{ x := xi, y := yi, width := 1, height := 1 }]
  | some humanIdx =>
    let existingBox := humans.getD humanIdx default
    let x2 := max (existingBox.x + existingBox.width - 1) xi
    let y2 := max (existingBox.y + existingBox.height - 1) yi
    let grown : Box2D :=
      { x := existingBox.x, y := existingBox.y,
        width := x2 - existingBox.x + 1, height := y2 - existingBox.y + 1 }
    (humans.set humanIdx (humans.getD 0 default)).set 0 grown

/-- Pass-1 inner loop over the first `x` pixels of row `yi`, whose byte index
is `rowStart + x` (the running byte counter `i` of the source). -/
def scanRow (mask : SegmentationMask) (minimumConfidence : Nat) (yi : Nat)
    (rowStart : Nat) (humans : List Box2D) : Nat → List Box2D
  | 0 => humans
  | x + 1 =>
    let h := scanRow mask minimumConfidence yi rowStart humans x
    if mask.data (rowStart + x) < minimumConfidence then h
    else scanStep h (x : Int) (yi : Int)

/-- Byte distance between consecutive row starts:
`maskWidth + offsetToNextLine`, with the `size_t` subtraction
`bytesPerRow - maskWidth` made explicit. -/
def rowStride (mask : SegmentationMask) : Nat :=
  mask.width + toSizeT ((mask.bytesPerRow : Int) - (mask.width : Int))

/-- Pass-1 outer loop over the first `y` rows. -/
def scanRows (mask : SegmentationMask) (minimumConfidence : Nat)
    (humans : List Box2D) : Nat → List Box2D
  | 0 => humans
  | y + 1 =>
    scanRow mask minimumConfidence y (y * rowStride mask)
      (scanRows mask minimumConfidence humans y) mask.width

/-- Pass-2 inner loop (`for j = i + 1 ...`): fold the current box over the
subsequent boxes, merging every one it overlaps (and erasing it), keeping the
rest.  Returns the final current box, the surviving subsequent boxes, and
whether any merge happened. -/
def mergeInner : Box2D → List Box2D → Box2D × List Box2D × Bool
  | cur, [] => (cur, [], false)
  | cur, b :: rest =>
    if cur.overlaps b then
      let r := mergeInner (cur.mergeWith b) rest
      (r.1, r.2.1, true)
    else
      let r := mergeInner cur rest
      (r.1, b :: r.2.1, r.2.2)

/-- Pass-2 outer loop (`for i ...`) over one full pass, with fuel bounding the
number of outer iterations (the C++ loop runs at most `humans.size()` outer
iterations; callers pass the list length, which always suffices). -/
def mergePassGo : Nat → List Box2D → List Box2D × Bool
  | 0, l => (l, false)
  | _ + 1, [] => ([], false)
  | fuel + 1, h :: t =>
    let inner := mergeInner h t
    let rest := mergePassGo fuel inner.2.1
    (inner.1 :: rest.1, inner.2.2 || rest.2)

/-- One full merge pass over the list. -/
def mergePass (humans : List Box2D) : List Box2D × Bool :=
  mergePassGo humans.length humans

/-- The `do { ... } while (mergedSomething)` loop; the fuel passed by
`findHumans` dominates the number of passes (every pass that merges shortens
the list). -/
def mergeLoop : Nat → List Box2D → List Box2D
  | 0, humans => humans
  | fuel + 1, humans =>
    let pass := mergePass humans
    if pass.2 then mergeLoop fuel pass.1 else pass.1

/-- `findHumans`. -/
def findHumans (mask : SegmentationMask) (minimumConfidence : Nat) : List Box2D :=
  let humans := scanRows mask minimumConfidence [] mask.height
  mergeLoop (humans.length + 1) humans

end HumanInstancing

/-! ## Properties of the linearisation (claim-side predicates) -/

namespace OccupancyMap

/-- Every in-range cell is mapped by the linearisation to an index strictly
below the allocated size `cellsWide * cellsDeep`. -/
def linearAllInBounds (m : OccupancyMap) : Prop :=
  ∀ x < m.cellsWide, ∀ z < m.cellsDeep, m.linearIndex x z < m.numCells

/-- The linearisation is injective on in-range cells. -/
def linearInjectiveOnCells (m : OccupancyMap) : Prop :=
  ∀ x₁ < m.cellsWide, ∀ z₁ < m.cellsDeep, ∀ x₂ < m.cellsWide, ∀ z₂ < m.cellsDeep,
    m.linearIndex x₁ z₁ = m.linearIndex x₂ z₂ → x₁ = x₂ ∧ z₁ = z₂

instance (m : OccupancyMap) : Decidable (linearAllInBounds m) := by
  unfold linearAllInBounds; infer_instance

set_option synthInstance.maxSize 2000 in
instance (m : OccupancyMap) : Decidable (linearInjectiveOnCells m) := by
  unfold linearInjectiveOnCells; infer_instance

end OccupancyMap

/-! # Theorems -/

/-- The computable `floorQ` is `Int.floor`. -/
theorem ratFloor_eq_intFloor (q : ℚ) : floorQ q = ⌊q⌋ :=
  (Rat.floor_def' q).trans Rat.floor_def.symm

/-! ## C1 — Box2D::overlaps -/

/-- C1: the claim states that `Box2D::overlaps(a, b)` is true iff the two
rectangles intersect on both axes (half-open on the +x/+y side).  The source
compares `other.y` against `y + width` on the last branch, so the boxes
`a = (0, 0, 1, 10)` and `b = (0, 5, 1, 1)` intersect on both axes yet
`overlaps` returns `false`: the code contradicts the documented intent. -/
theorem overlaps_code_bug_at_failing_input :
    Box2D.overlaps ⟨0, 0, 1, 10⟩ ⟨0, 5, 1, 1⟩ = false ∧
    Box2D.intersectsSpec ⟨0, 0, 1, 10⟩ ⟨0, 5, 1, 1⟩ = true := by
  constructor <;> rfl

/-! ## C9 — Box2D::mergeWith -/

/-- C9: `mergeWith` produces exactly the box with `x1 = min` of left edges,
`x2 = max` of inclusive right edges (likewise for y), width `x2 - x1 + 1` and
height `y2 - y1 + 1`; the result contains both inputs, and is the smallest
box doing so. -/
theorem mergeWith_minimal_enclosing (a b : Box2D) :
    a.mergeWith b =
      ⟨min a.x b.x, min a.y b.y,
        max (a.x + a.width - 1) (b.x + b.width - 1) - min a.x b.x + 1,
        max (a.y + a.height - 1) (b.y + b.height - 1) - min a.y b.y + 1⟩ ∧
    (a.mergeWith b).containsBox a ∧ (a.mergeWith b).containsBox b ∧
    ∀ c : Box2D, c.containsBox a → c.containsBox b → c.containsBox (a.mergeWith b) := by
  refine ⟨rfl, ?_, ?_, ?_⟩
  · simp only [Box2D.mergeWith, Box2D.containsBox]
    omega
  · simp only [Box2D.mergeWith, Box2D.containsBox]
    omega
  · intro c hca hcb
    simp only [Box2D.mergeWith, Box2D.containsBox] at *
    omega

/-- Witness for C9 at concrete boxes. -/
theorem mergeWith_minimal_enclosing_witness :
    Box2D.containsBox ⟨0, 0, 10, 10⟩ (Box2D.mergeWith ⟨1, 1, 2, 2⟩ ⟨3, 3, 2, 2⟩) :=
  (mergeWith_minimal_enclosing ⟨1, 1, 2, 2⟩ ⟨3, 3, 2, 2⟩).2.2.2 ⟨0, 0, 10, 10⟩
    (by decide) (by decide)

/-! ## C10 — the linearisation -/

/-- C10 counterexample: for the map with `cellsWide = 2`, `cellsDeep = 1` the
linearisation is injective on in-range cells although `cellsWide ≤ cellsDeep`
fails, refuting the claim's "injective iff Nx ≤ Nz" (and with it "only square
maps give every in-range cell an in-bounds and distinct slot", since this
non-square map also keeps every in-range cell in bounds). -/
theorem linearIndex_injective_iff_counterexample :
    OccupancyMap.linearInjectiveOnCells ⟨2, 1, 1, (0, 0), (0, 0), fun _ => 0⟩ ∧
    OccupancyMap.linearAllInBounds ⟨2, 1, 1, (0, 0), (0, 0), fun _ => 0⟩ ∧
    ¬((2 : Nat) ≤ 1) ∧ (2 : Nat) ≠ 1 := by
  refine ⟨by decide, by decide, by decide, by decide⟩

/-- C10 (amended): with at least one cell on each axis, every in-range cell
maps below `cellsWide * cellsDeep` iff `cellsDeep ≤ cellsWide`; the
linearisation is injective on in-range cells iff `cellsWide ≤ cellsDeep` or
`cellsDeep = 1`; hence exactly the maps with `cellsWide = cellsDeep` or
`cellsDeep = 1` give every in-range cell an in-bounds and distinct slot. -/
theorem linearIndex_bounds_and_injectivity (m : OccupancyMap)
    (hx : 1 ≤ m.cellsWide) (hz : 1 ≤ m.cellsDeep) :
    (m.linearAllInBounds ↔ m.cellsDeep ≤ m.cellsWide) ∧
    (m.linearInjectiveOnCells ↔ (m.cellsWide ≤ m.cellsDeep ∨ m.cellsDeep = 1)) ∧
    ((m.linearAllInBounds ∧ m.linearInjectiveOnCells) ↔
      (m.cellsWide = m.cellsDeep ∨ m.cellsDeep = 1)) := by
  set Nx := m.cellsWide with hNx
  set Nz := m.cellsDeep with hNz
  have hlin : ∀ x, x < Nx → ∀ z, z < Nz → m.linearIndex x z = z * Nz + x := by
    intro x hxlt z hzlt
    unfold OccupancyMap.linearIndex
    rw [← hNx, ← hNz, min_eq_left (by omega), min_eq_left (by omega)]
  have hcells : m.numCells = Nx * Nz := rfl
  have h1 : m.linearAllInBounds ↔ Nz ≤ Nx := by
    constructor
    · intro hB
      by_contra hlt
      push_neg at hlt
      have hb := hB (Nx - 1) (by omega) (Nz - 1) (by omega)
      rw [hlin _ (by omega) _ (by omega), hcells] at hb
      have hmul : Nx * Nz ≤ (Nz - 1) * Nz := Nat.mul_le_mul_right Nz (by omega)
      have : (1 : Nat) ≤ Nx := hx
      linarith
    · intro hle x hxlt z hzlt
      rw [hlin _ hxlt _ hzlt, hcells]
      have e1 : z * Nz + Nz ≤ (Nz - 1) * Nz + Nz :=
        Nat.add_le_add_right (Nat.mul_le_mul_right Nz (by omega)) Nz
      have e2 : (Nz - 1) * Nz ≤ (Nz - 1) * Nx := Nat.mul_le_mul_left (Nz - 1) hle
      have e3 : (Nz - 1) * Nx + Nx = Nz * Nx := by
        have hs : Nz - 1 + 1 = Nz := by omega
        calc (Nz - 1) * Nx + Nx = (Nz - 1 + 1) * Nx := (Nat.succ_mul _ _).symm
          _ = Nz * Nx := by rw [hs]
      have e4 : Nz * Nx = Nx * Nz := Nat.mul_comm Nz Nx
      linarith
  have h2 : m.linearInjectiveOnCells ↔ (Nx ≤ Nz ∨ Nz = 1) := by
    constructor
    · intro hI
      by_contra hcon
      push_neg at hcon
      obtain ⟨hgt', hne⟩ := hcon
      have heq : m.linearIndex Nz 0 = m.linearIndex 0 1 := by
        rw [hlin Nz (by omega) 0 (by omega), hlin 0 (by omega) 1 (by omega)]
        omega
      have := hI Nz (by omega) 0 (by omega) 0 (by omega) 1 (by omega) heq
      omega
    · rintro (hle | hone)
      · intro x₁ hx₁ z₁ hz₁ x₂ hx₂ z₂ hz₂ heq
        rw [hlin _ hx₁ _ hz₁, hlin _ hx₂ _ hz₂] at heq
        have hm₁ : (z₁ * Nz + x₁) % Nz = x₁ := by
          rw [Nat.mul_comm z₁ Nz, Nat.mul_add_mod]
          exact Nat.mod_eq_of_lt (lt_of_lt_of_le hx₁ hle)
        have hm₂ : (z₂ * Nz + x₂) % Nz = x₂ := by
          rw [Nat.mul_comm z₂ Nz, Nat.mul_add_mod]
          exact Nat.mod_eq_of_lt (lt_of_lt_of_le hx₂ hle)
        have hxeq : x₁ = x₂ := by rw [← hm₁, ← hm₂, heq]
        refine ⟨hxeq, ?_⟩
        have hzeq : z₁ * Nz = z₂ * Nz := by omega
        exact Nat.eq_of_mul_eq_mul_right (by omega) hzeq
      · intro x₁ hx₁ z₁ hz₁ x₂ hx₂ z₂ hz₂ heq
        rw [hlin _ hx₁ _ hz₁, hlin _ hx₂ _ hz₂, hone] at heq
        omega
  refine ⟨h1, h2, ?_⟩
  rw [h1, h2]
  omega

/-- Witness for C10 (amended) at a concrete square map. -/
theorem linearIndex_bounds_and_injectivity_witness :
    OccupancyMap.linearAllInBounds ⟨3, 3, 1, (0, 0), (0, 0), fun _ => 0⟩ ∧
    OccupancyMap.linearInjectiveOnCells ⟨3, 3, 1, (0, 0), (0, 0), fun _ => 0⟩ :=
  (linearIndex_bounds_and_injectivity ⟨3, 3, 1, (0, 0), (0, 0), fun _ => 0⟩
    (by decide) (by decide)).2.2.mpr (Or.inl rfl)

/-! ## C5 — updateOccupancyFromCounts -/

/-- Pointwise characterisation of the `updateOccupancyFromCounts` loop over
the first `n` indices. -/
theorem updateCountsLoop_apply (counts : OccupancyMap) (T : ℚ) (occ : Nat → ℚ)
    (n j : Nat) :
    OccupancyMap.updateCountsLoop counts T occ n j =
      if j < n ∧ counts.occupancy j ≥ T then 1 else occ j := by
  induction n with
  | zero => simp [OccupancyMap.updateCountsLoop]
  | succ n ih =>
    unfold OccupancyMap.updateCountsLoop OccupancyMap.updateCountStep
    by_cases hthr : counts.occupancy n ≥ T
    · rw [if_pos hthr]
      by_cases hj : j = n
      · subst hj
        simp [hthr, Nat.lt_succ_self]
      · simp only [hj, if_false]
        rw [ih]
        have : (j < n ∧ counts.occupancy j ≥ T) ↔ (j < n + 1 ∧ counts.occupancy j ≥ T) := by
          constructor
          · rintro ⟨h1, h2⟩; exact ⟨Nat.lt_succ_of_lt h1, h2⟩
          · rintro ⟨h1, h2⟩; exact ⟨by omega, h2⟩
        rw [if_congr this rfl rfl]
    · rw [if_neg hthr, ih]
      have : (j < n ∧ counts.occupancy j ≥ T) ↔ (j < n + 1 ∧ counts.occupancy j ≥ T) := by
        constructor
        · rintro ⟨h1, h2⟩; exact ⟨Nat.lt_succ_of_lt h1, h2⟩
        · rintro ⟨h1, h2⟩
          refine ⟨?_, h2⟩
          rcases Nat.lt_succ_iff_lt_or_eq.mp h1 with h | h
          · exact h
          · subst h; exact absurd h2 hthr
      rw [if_congr this rfl rfl]

/-- C5: for same-size maps, `updateOccupancyFromCounts(counts, T)` sets a
cell to `1` exactly where the counts cell is `≥ T` and leaves every other
cell (including cells beyond the loop range) unchanged; consequently, when
`T` exceeds every count, no cell changes. -/
theorem updateOccupancyFromCounts_spec (m counts : OccupancyMap) (T : ℚ)
    (hsize : counts.numCells = m.numCells) :
    (∀ i < m.numCells,
      (m.updateOccupancyFromCounts counts T).occupancy i =
        if counts.occupancy i ≥ T then 1 else m.occupancy i) ∧
    (∀ i, ¬ i < m.numCells →
      (m.updateOccupancyFromCounts counts T).occupancy i = m.occupancy i) ∧
    ((∀ i < m.numCells, counts.occupancy i < T) →
      ∀ i < m.numCells,
        (m.updateOccupancyFromCounts counts T).occupancy i = m.occupancy i) := by
  refine ⟨?_, ?_, ?_⟩
  · intro i hi
    show OccupancyMap.updateCountsLoop counts T m.occupancy counts.numCells i = _
    rw [updateCountsLoop_apply, hsize]
    simp [hi]
  · intro i hi
    show OccupancyMap.updateCountsLoop counts T m.occupancy counts.numCells i = _
    rw [updateCountsLoop_apply, hsize]
    simp [hi]
  · intro hall i hi
    show OccupancyMap.updateCountsLoop counts T m.occupancy counts.numCells i = _
    rw [updateCountsLoop_apply, hsize]
    have := hall i hi
    have hnot : ¬ counts.occupancy i ≥ T := not_le.mpr this
    simp [hnot]

/-- Witness for C5 at concrete same-size maps: a cell whose count reaches the
threshold becomes 1, and with an unreachable threshold nothing changes. -/
theorem updateOccupancyFromCounts_spec_witness :
    (OccupancyMap.updateOccupancyFromCounts ⟨2, 1, 1, (0, 0), (0, 0), fun _ => 0⟩
      ⟨2, 1, 1, (0, 0), (0, 0), fun i => if i = 0 then 5 else 0⟩ 3).occupancy 0 = 1 ∧
    (OccupancyMap.updateOccupancyFromCounts ⟨2, 1, 1, (0, 0), (0, 0), fun _ => 0⟩
      ⟨2, 1, 1, (0, 0), (0, 0), fun i => if i = 0 then 5 else 0⟩ 6).occupancy 0 = 0 := by
  constructor
  · have h := (updateOccupancyFromCounts_spec ⟨2, 1, 1, (0, 0), (0, 0), fun _ => 0⟩
      ⟨2, 1, 1, (0, 0), (0, 0), fun i => if i = 0 then 5 else 0⟩ 3 rfl).1 0 (by decide)
    rw [h]
    norm_num
  · have h := (updateOccupancyFromCounts_spec ⟨2, 1, 1, (0, 0), (0, 0), fun _ => 0⟩
      ⟨2, 1, 1, (0, 0), (0, 0), fun i => if i = 0 then 5 else 0⟩ 6 rfl).2.2 ?_ 0 (by decide)
    · rw [h]
    · intro i hi
      have h2 : i < 2 := by simpa [OccupancyMap.numCells] using hi
      interval_cases i <;> norm_num

/-! ## C4 — positionToCell vs positionToFractionalIndices -/

/-- The clamped fractional index rounds to the same clamped integral index as
the raw value: clamping to `[-1/2, (n-1) + 1/2]` before `⌊· + 1/2⌋` commutes
with clamping the floored value to `[0, n-1]`. -/
theorem clampIndex_floor_clamped (v : ℚ) (n : Nat) (hn : 1 ≤ n) :
    OccupancyMap.clampIndex ⌊min (max (-(1/2)) v) ((n - 1 : Nat) + 1/2) + 1/2⌋ n =
      OccupancyMap.clampIndex ⌊v + 1/2⌋ n := by
  have hcast : (0 : ℚ) ≤ ((n - 1 : Nat) : ℚ) := Nat.cast_nonneg _
  have hhi : (-(1/2) : ℚ) ≤ ((n - 1 : Nat) : ℚ) + 1/2 := by linarith
  rcases le_or_lt v (-(1/2)) with hlo | hlo
  · rw [max_eq_left hlo, min_eq_left hhi]
    have h0 : ⌊(-(1/2) : ℚ) + 1/2⌋ = 0 := by norm_num
    have hv : ⌊v + 1/2⌋ ≤ 0 := by
      calc ⌊v + 1/2⌋ ≤ ⌊(-(1/2) : ℚ) + 1/2⌋ := Int.floor_le_floor (by linarith)
        _ = 0 := h0
    rw [h0]
    unfold OccupancyMap.clampIndex
    rw [max_eq_left hv, max_eq_left (le_refl (0 : ℤ))]
  · rw [max_eq_right hlo.le]
    rcases le_or_lt ((n - 1 : Nat) + 1/2 : ℚ) v with hge | hmid
    · rw [min_eq_right hge]
      have hfl : ⌊((n - 1 : Nat) : ℚ) + 1/2 + 1/2⌋ = ((n - 1 : Nat) : ℤ) + 1 := by
        have : ((n - 1 : Nat) : ℚ) + 1/2 + 1/2 = ((n - 1 : Nat) : ℚ) + 1 := by ring
        rw [this]
        rw [show ((n - 1 : Nat) : ℚ) + 1 = (((n - 1 : Nat) : ℤ) + 1 : ℤ) by push_cast; ring]
        exact Int.floor_intCast _
      have hvfl : ((n - 1 : Nat) : ℤ) + 1 ≤ ⌊v + 1/2⌋ := by
        rw [← hfl]
        exact Int.floor_le_floor (by linarith)
      rw [hfl]
      unfold OccupancyMap.clampIndex
      rw [max_eq_right (by positivity : (0 : ℤ) ≤ ((n - 1 : Nat) : ℤ) + 1),
        max_eq_right (le_trans (by positivity) hvfl)]
      have h1 : (((n - 1 : Nat) : ℤ) + 1).toNat = n := by omega
      have h2 : n - 1 ≤ ⌊v + 1/2⌋.toNat := by omega
      rw [h1]
      omega
    · rw [min_eq_left hmid.le]

/-- The integral index of `positionToCell` (clamped after rounding) equals
the rounded clamped fractional index of `positionToFractionalIndices`, for
one axis: `u` is the scaled offset from the grid center and `c` the center
cell's index on that axis. -/
theorem clampIndex_floor_fractional (u : ℚ) (c n : Nat) (hn : 1 ≤ n) :
    OccupancyMap.clampIndex (⌊u + 1/2⌋ + (c : ℤ)) n =
      OccupancyMap.clampIndex
        ⌊min (max (-(1/2)) (u + (c : ℚ))) ((n - 1 : Nat) + 1/2) + 1/2⌋ n := by
  rw [clampIndex_floor_clamped _ n hn]
  congr 1
  rw [show u + (c : ℚ) + 1/2 = u + 1/2 + ((c : ℤ) : ℚ) by push_cast; ring,
    Int.floor_add_int]

/-- C4: `positionToCell` returns indices in `[0, cellsWide) × [0, cellsDeep)`,
and on each axis the integral index equals the floor of the fractional index
plus 1/2, clamped to the valid index range. -/
theorem positionToCell_spec (m : OccupancyMap) (p : ℚ × ℚ)
    (hx : 1 ≤ m.cellsWide) (hz : 1 ≤ m.cellsDeep) :
    (m.positionToCell p).1 < m.cellsWide ∧ (m.positionToCell p).2 < m.cellsDeep ∧
    (m.positionToCell p).1 =
      OccupancyMap.clampIndex ⌊(m.positionToFractionalIndices p).1 + 1/2⌋ m.cellsWide ∧
    (m.positionToCell p).2 =
      OccupancyMap.clampIndex ⌊(m.positionToFractionalIndices p).2 + 1/2⌋ m.cellsDeep := by
  refine ⟨?_, ?_, ?_, ?_⟩
  · exact lt_of_le_of_lt (min_le_right _ _) (by omega)
  · exact lt_of_le_of_lt (min_le_right _ _) (by omega)
  · exact clampIndex_floor_fractional ((p.1 - m.gridCenterPoint.1) / m.cellSide)
      m.centerCell.1 m.cellsWide hx
  · exact clampIndex_floor_fractional ((p.2 - m.gridCenterPoint.2) / m.cellSide)
      m.centerCell.2 m.cellsDeep hz

/-- Witness for C4 at a concrete map and position. -/
theorem positionToCell_spec_witness :
    (OccupancyMap.positionToCell ⟨4, 4, 1, (0, 0), (0, 0), fun _ => 0⟩ (7/3, -2)).1 < 4 ∧
    (OccupancyMap.positionToCell ⟨4, 4, 1, (0, 0), (0, 0), fun _ => 0⟩ (7/3, -2)).1 =
      OccupancyMap.clampIndex
        ⌊(OccupancyMap.positionToFractionalIndices ⟨4, 4, 1, (0, 0), (0, 0), fun _ => 0⟩
          (7/3, -2)).1 + 1/2⌋ 4 := by
  have h := positionToCell_spec ⟨4, 4, 1, (0, 0), (0, 0), fun _ => 0⟩ (7/3, -2)
    (by decide) (by decide)
  exact ⟨h.1, h.2.2.1⟩

/-! ## C3 — isLineUnobstructed on a zero-length segment -/

/-- `toSizeT` is the identity (as `toNat`) on representable nonnegative
values. -/
theorem toSizeT_eq_toNat (i : Int) (h0 : 0 ≤ i) (h64 : i < 2 ^ 64) :
    toSizeT i = i.toNat := by
  unfold toSizeT
  rw [Int.emod_eq_of_lt h0 (by exact_mod_cast h64)]

/-- The rounded clamped fractional index lies in `[0, n]`. -/
theorem floor_clamped_bounds (w : ℚ) (n : Nat) (hn : 1 ≤ n) :
    0 ≤ ⌊min (max (-(1/2)) w) ((n - 1 : Nat) + 1/2) + 1/2⌋ ∧
    ⌊min (max (-(1/2)) w) ((n - 1 : Nat) + 1/2) + 1/2⌋ ≤ (n : ℤ) := by
  have hc : (0 : ℚ) ≤ ((n - 1 : Nat) : ℚ) := Nat.cast_nonneg _
  have hlo : (-(1/2) : ℚ) ≤ min (max (-(1/2)) w) ((n - 1 : Nat) + 1/2) :=
    le_min (le_max_left _ _) (by linarith)
  have hhi : min (max (-(1/2)) w) ((n - 1 : Nat) + 1/2) ≤ ((n - 1 : Nat) : ℚ) + 1/2 :=
    min_le_right _ _
  constructor
  · apply Int.le_floor.mpr
    push_cast
    linarith
  · have hcast : ((n - 1 : Nat) : ℚ) + 1 ≤ (n : ℚ) := by
      have : ((n - 1 : Nat) : ℚ) = (n : ℚ) - 1 := by
        have hns : n - 1 + 1 = n := by omega
        calc ((n - 1 : Nat) : ℚ) = ((n - 1 + 1 : Nat) : ℚ) - 1 := by push_cast; ring
          _ = (n : ℚ) - 1 := by rw [hns]
      linarith
    calc ⌊min (max (-(1/2)) w) ((n - 1 : Nat) + 1/2) + 1/2⌋
        ≤ ⌊(n : ℚ)⌋ := Int.floor_le_floor (by linarith)
      _ = (n : ℤ) := Int.floor_natCast n

/-- For one axis, the cell index used by the traversal's `at(x, z)` call
(`int → size_t` conversion followed by `linearIndex`'s clamp) equals the
index computed by `positionToCell`. -/
theorem min_toSizeT_floor_frac (u : ℚ) (c n : Nat) (hn : 1 ≤ n) (hn64 : n < 2 ^ 64) :
    min (toSizeT ⌊min (max (-(1/2)) (u + (c : ℚ))) ((n - 1 : Nat) + 1/2) + 1/2⌋) (n - 1) =
      OccupancyMap.clampIndex (⌊u + 1/2⌋ + (c : ℤ)) n := by
  obtain ⟨h0, hle⟩ := floor_clamped_bounds (u + (c : ℚ)) n hn
  rw [toSizeT_eq_toNat _ h0 (lt_of_le_of_lt hle (by exact_mod_cast hn64))]
  rw [clampIndex_floor_fractional u c n hn]
  unfold OccupancyMap.clampIndex
  rw [max_eq_right h0]

/-- On a degenerate traversal (zero steps, end sentinels equal to the start
cell), the do-while loop checks the start cell and exits after its first
iteration. -/
theorem losLoop_degenerate (m : OccupancyMap) (x z : Int)
    (tdx tdz tmx tmz : FloatVal) (fuel : Nat) :
    OccupancyMap.losLoop m x z 0 0 tdx tdz (fuel + 1) x z tmx tmz =
      (if m.atInt x z = 0 then true else false) := by
  by_cases h : m.atInt x z = 0
  · cases hlt : FloatVal.lt tmx tmz <;>
      simp [OccupancyMap.losLoop, h, hlt]
  · simp [OccupancyMap.losLoop, h]

/-- C3: a zero-length segment is unobstructed iff the cell containing the
position (the cell `positionToCell` assigns to it) is unoccupied. -/
theorem isLineUnobstructed_degenerate (m : OccupancyMap) (p : ℚ × ℚ)
    (hx : 1 ≤ m.cellsWide) (hz : 1 ≤ m.cellsDeep)
    (hx64 : m.cellsWide < 2 ^ 64) (hz64 : m.cellsDeep < 2 ^ 64) :
    (m.isLineUnobstructed p p = true ↔
      m.atCell (m.positionToCell p).1 (m.positionToCell p).2 = 0) := by
  have hq0 : OccupancyMap.qsign 0 = 0 := by norm_num [OccupancyMap.qsign]
  have hidx : m.atInt (floorQ ((m.positionToFractionalIndices p).1 + 1/2))
      (floorQ ((m.positionToFractionalIndices p).2 + 1/2)) =
      m.atCell (m.positionToCell p).1 (m.positionToCell p).2 := by
    unfold OccupancyMap.atInt OccupancyMap.atCell OccupancyMap.linearIndex
    have e1 : min (toSizeT (floorQ ((m.positionToFractionalIndices p).1 + 1/2)))
        (m.cellsWide - 1) = (m.positionToCell p).1 := by
      rw [ratFloor_eq_intFloor]
      simp only [OccupancyMap.positionToFractionalIndices]
      exact min_toSizeT_floor_frac ((p.1 - m.gridCenterPoint.1) / m.cellSide)
        m.centerCell.1 m.cellsWide hx hx64
    have e2 : min (toSizeT (floorQ ((m.positionToFractionalIndices p).2 + 1/2)))
        (m.cellsDeep - 1) = (m.positionToCell p).2 := by
      rw [ratFloor_eq_intFloor]
      simp only [OccupancyMap.positionToFractionalIndices]
      exact min_toSizeT_floor_frac ((p.2 - m.gridCenterPoint.2) / m.cellSide)
        m.centerCell.2 m.cellsDeep hz hz64
    have e1' : min ((m.positionToCell p).1) (m.cellsWide - 1) = (m.positionToCell p).1 :=
      min_eq_left (le_trans (min_le_right _ _) (le_refl _))
    have e2' : min ((m.positionToCell p).2) (m.cellsDeep - 1) = (m.positionToCell p).2 :=
      min_eq_left (le_trans (min_le_right _ _) (le_refl _))
    rw [e1, e2, e1', e2']
  unfold OccupancyMap.isLineUnobstructed
  simp only [sub_self, hq0, add_zero]
  rw [show m.cellsWide + m.cellsDeep + 2 = m.cellsWide + m.cellsDeep + 1 + 1 from rfl]
  rw [losLoop_degenerate, hidx]
  split_ifs with h
  · simp [h]
  · simp [h]

unseal Rat.add Rat.sub Rat.mul Rat.inv in
/-- Witness for C3 at a concrete map and position. -/
theorem isLineUnobstructed_degenerate_witness :
    OccupancyMap.isLineUnobstructed ⟨2, 2, 1, (0, 0), (0, 0), fun _ => 0⟩ (0, 0) (0, 0) = true :=
  (isLineUnobstructed_degenerate ⟨2, 2, 1, (0, 0), (0, 0), fun _ => 0⟩ (0, 0)
    (by decide) (by decide) (by decide) (by decide)).mpr (by decide)

/-! ## C2 — findPath edge cases -/

/-- C2: `findPath` returns the empty path when the goal's cell is occupied,
and when (with the goal's cell unoccupied and distinct from the start's cell)
the breadth-first frontier empties without reaching the start's cell; when
the start and goal map to the same unoccupied cell it returns exactly that
one cell. -/
theorem findPath_edge_cases (m : OccupancyMap) (fromPos toPos : ℚ × ℚ) (r : ℚ) :
    (m.atCell (m.positionToCell toPos).1 (m.positionToCell toPos).2 ≠ 0 →
      FindPath.findPath m fromPos toPos r = []) ∧
    (m.atCell (m.positionToCell toPos).1 (m.positionToCell toPos).2 = 0 →
      m.positionToCell toPos = m.positionToCell fromPos →
      FindPath.findPath m fromPos toPos r = [m.positionToCell fromPos]) ∧
    (m.atCell (m.positionToCell toPos).1 (m.positionToCell toPos).2 = 0 →
      m.positionToCell toPos ≠ m.positionToCell fromPos →
      FindPath.bfsLoop m (m.positionToCell fromPos)
          (FindPath.computeFootprintSideLengthInCells m r) (m.numCells + 1)
          [m.positionToCell toPos]
          [(m.positionToCell toPos, m.positionToCell toPos)] =
        FindPath.BfsResult.exhausted →
      FindPath.findPath m fromPos toPos r = []) := by
  refine ⟨?_, ?_, ?_⟩
  · intro h
    simp [FindPath.findPath, h]
  · intro h1 h2
    have h1' : m.atCell (m.positionToCell fromPos).1 (m.positionToCell fromPos).2 = 0 :=
      h2 ▸ h1
    simp [FindPath.findPath, h1, h2, h1']
  · intro h1 h2 hb
    simp only [FindPath.findPath, h1, ne_eq, not_true_eq_false, if_false,
      not_false_eq_true, if_neg h2, hb]

unseal Rat.add Rat.sub Rat.mul Rat.inv in
/-- Witness for C2: a fully occupied goal, a coincident start and goal, and a
map whose only free cell is the goal (so the frontier empties). -/
theorem findPath_edge_cases_witness :
    FindPath.findPath ⟨2, 2, 1, (0, 0), (0, 0), fun _ => 1⟩ (0, 0) (0, 0) 0 = [] ∧
    FindPath.findPath ⟨2, 2, 1, (0, 0), (0, 0), fun _ => 0⟩ (0, 0) (0, 0) 0 =
      [OccupancyMap.positionToCell ⟨2, 2, 1, (0, 0), (0, 0), fun _ => 0⟩ (0, 0)] ∧
    FindPath.findPath ⟨2, 2, 1, (0, 0), (0, 0), fun i => if i = 0 then 0 else 1⟩
      (0, 0) (-1, -1) 0 = [] := by
  refine ⟨?_, ?_, ?_⟩
  · exact (findPath_edge_cases ⟨2, 2, 1, (0, 0), (0, 0), fun _ => 1⟩ (0, 0) (0, 0) 0).1
      (by decide)
  · exact (findPath_edge_cases ⟨2, 2, 1, (0, 0), (0, 0), fun _ => 0⟩ (0, 0) (0, 0) 0).2.1
      (by decide) rfl
  · exact (findPath_edge_cases ⟨2, 2, 1, (0, 0), (0, 0), fun i => if i = 0 then 0 else 1⟩
      (0, 0) (-1, -1) 0).2.2 (by decide) (by decide) (by decide)

/-! ## C6 — filterDepthMap -/

namespace FilterDepthMap

/-- The fast-path loop leaves indices at or beyond the processed range
unchanged. -/
theorem filterLinear_frame (conf : Nat → Nat) (mc : Nat) (d : Nat → ℚ)
    (n i : Nat) (hi : n ≤ i) :
    filterLinear conf mc d n i = d i := by
  induction n with
  | zero => rfl
  | succ n ih =>
    unfold filterLinear
    have hne : i ≠ n := by omega
    split
    · unfold store
      simp only [hne, if_false]
      exact ih (by omega)
    · exact ih (by omega)

/-- The fast-path loop filters each processed element pointwise. -/
theorem filterLinear_point (conf : Nat → Nat) (mc : Nat) (d : Nat → ℚ)
    (n i : Nat) (hi : i < n) :
    filterLinear conf mc d n i = if conf i < mc then 1000000 else d i := by
  induction n with
  | zero => omega
  | succ n ih =>
    unfold filterLinear
    by_cases hin : i = n
    · subst hin
      by_cases hc : conf i < mc
      · simp only [hc, if_true]
        unfold store
        simp
      · simp only [hc, if_false]
        exact filterLinear_frame conf mc d i i (le_refl i)
    · have hlt : i < n := by omega
      by_cases hc : conf n < mc
      · simp only [hc, if_true]
        unfold store
        simp only [hin, if_false]
        exact ih hlt
      · simp only [hc, if_false]
        exact ih hlt
/-- The slow-path row loop touches only the depth elements of its row's
processed prefix. -/
theorem filterRow_frame (conf : Nat → Nat) (mc ds cs y : Nat) (d : Nat → ℚ)
    (x j : Nat) (hj : ∀ t < x, j ≠ y * ds + t) :
    filterRow conf mc ds cs y d x j = d j := by
  induction x with
  | zero => rfl
  | succ x ih =>
    unfold filterRow
    split
    · unfold store
      simp only [hj x (by omega), if_false]
      exact ih fun t ht => hj t (by omega)
    · exact ih fun t ht => hj t (by omega)

/-- The slow-path row loop filters each processed pixel of its row
pointwise. -/
theorem filterRow_point (conf : Nat → Nat) (mc ds cs y : Nat) (d : Nat → ℚ)
    (x t : Nat) (ht : t < x) (hds : x ≤ ds) :
    filterRow conf mc ds cs y d x (y * ds + t) =
      if conf (y * cs + t) < mc then 1000000 else d (y * ds + t) := by
  induction x with
  | zero => omega
  | succ x ih =>
    unfold filterRow
    by_cases htx : t = x
    · subst htx
      by_cases hc : conf (y * cs + t) < mc
      · simp only [hc, if_true]
        unfold store
        simp
      · simp only [hc, if_false]
        exact filterRow_frame conf mc ds cs y d t _ fun u hu => by omega
    · have hlt : t < x := by omega
      by_cases hc : conf (y * cs + x) < mc
      · simp only [hc, if_true]
        unfold store
        have hne : y * ds + t ≠ y * ds + x := by omega
        simp only [hne, if_false]
        exact ih hlt (by omega)
      · simp only [hc, if_false]
        exact ih hlt (by omega)

/-- Depth addresses of distinct pixels are distinct when the row stride is at
least the width. -/
theorem pixel_addr_ne (ds w y t y' t' : Nat) (hw : w ≤ ds) (ht : t < w)
    (_ht' : t' < w) (hy : y < y') : y * ds + t ≠ y' * ds + t' := by
  intro heq
  have h1 : y * ds + t < (y + 1) * ds := by
    have := Nat.lt_of_lt_of_le ht hw
    calc y * ds + t < y * ds + ds := by omega
      _ = (y + 1) * ds := by rw [Nat.succ_mul]
  have h2 : (y + 1) * ds ≤ y' * ds := Nat.mul_le_mul_right ds (by omega)
  omega

/-- The slow-path outer loop leaves depth elements outside all processed rows
unchanged. -/
theorem filterRows_frame (conf : Nat → Nat) (mc w ds cs : Nat) (d : Nat → ℚ)
    (h j : Nat) (hj : ∀ y < h, ∀ t < w, j ≠ y * ds + t) :
    filterRows conf mc w ds cs d h j = d j := by
  induction h with
  | zero => rfl
  | succ h ih =>
    unfold filterRows
    rw [filterRow_frame conf mc ds cs h _ w j fun t ht => hj h (by omega) t ht]
    exact ih fun y hy t ht => hj y (by omega) t ht

/-- C6 core: the slow-path loops filter every pixel pointwise. -/
theorem filterRows_point (conf : Nat → Nat) (mc w ds cs : Nat) (d : Nat → ℚ)
    (h y t : Nat) (hy : y < h) (ht : t < w) (hw : w ≤ ds) :
    filterRows conf mc w ds cs d h (y * ds + t) =
      if conf (y * cs + t) < mc then 1000000 else d (y * ds + t) := by
  induction h with
  | zero => omega
  | succ h ih =>
    unfold filterRows
    by_cases hyh : y = h
    · subst hyh
      rw [filterRow_point conf mc ds cs y _ w t ht hw]
      rw [filterRows_frame conf mc w ds cs d y _
        fun y' hy' t' ht' => (pixel_addr_ne ds w y' t' y t hw ht' ht hy').symm]
    · have hlt : y < h := by omega
      rw [filterRow_frame conf mc ds cs h _ w _
        fun t' ht' => pixel_addr_ne ds w y t h t' hw ht ht' (by omega)]
      exact ih hlt

end FilterDepthMap

/-- C6: with non-null base pointers and row strides at least the width, every
depth pixel whose paired confidence byte is strictly below the threshold is
set to the sentinel `1e6` and every other depth pixel keeps its value; with a
null base pointer on either side the depth memory is returned unmodified. -/
theorem filterDepthMap_spec (depth : Nat → ℚ) (conf : Nat → Nat)
    (w h ds cs mc : Nat) (hds : w ≤ ds) (hcs : w ≤ cs) :
    (∀ newDepth,
      FilterDepthMap.filterDepthMap (some depth) (some conf) w h ds cs mc = some newDepth →
      ∀ x < w, ∀ y < h,
        newDepth (y * ds + x) =
          if conf (y * cs + x) < mc then 1000000 else depth (y * ds + x)) ∧
    FilterDepthMap.filterDepthMap none (some conf) w h ds cs mc = none ∧
    FilterDepthMap.filterDepthMap (some depth) none w h ds cs mc = some depth := by
  refine ⟨?_, rfl, rfl⟩
  intro newDepth hnd x hx y hy
  unfold FilterDepthMap.filterDepthMap at hnd
  simp only [] at hnd
  by_cases hfast : ds - w = 0 ∧ cs - w = 0
  · have hdsw : ds = w := by omega
    have hcsw : cs = w := by omega
    rw [if_pos hfast] at hnd
    have hnd' := Option.some.inj hnd
    subst hnd'
    rw [hdsw, hcsw]
    exact FilterDepthMap.filterLinear_point conf mc depth (w * h) (y * w + x)
      (by calc y * w + x < y * w + w := by omega
            _ = (y + 1) * w := by rw [Nat.succ_mul]
            _ ≤ h * w := Nat.mul_le_mul_right w (by omega)
            _ = w * h := Nat.mul_comm h w)
  · rw [if_neg hfast] at hnd
    have hnd' := Option.some.inj hnd
    subst hnd'
    exact FilterDepthMap.filterRows_point conf mc w ds cs depth h y x hy hx hds

/-- Witness for C6 on the spec's 2x2 scenario (confidences 0 at the first and
last pixel, threshold 128): the last pixel becomes the sentinel. -/
theorem filterDepthMap_spec_witness :
    FilterDepthMap.filterLinear (fun i => if i = 0 ∨ i = 3 then 0 else 255) 128
      (fun i => ((i + 1 : Nat) : ℚ)) (2 * 2) (1 * 2 + 1) = 1000000 := by
  have hmain := (filterDepthMap_spec (fun i => ((i + 1 : Nat) : ℚ))
    (fun i => if i = 0 ∨ i = 3 then 0 else 255) 2 2 2 2 128 (le_refl 2) (le_refl 2)).1
    (FilterDepthMap.filterLinear (fun i => if i = 0 ∨ i = 3 then 0 else 255) 128
      (fun i => ((i + 1 : Nat) : ℚ)) (2 * 2)) rfl 1 (by omega) 1 (by omega)
  rw [hmain]
  norm_num

/-! ## C7 — computeAverageDepthOfBoundingBox -/

namespace BoxDepth

/-- The accumulator invariant (nonnegative sum bounded by `count * dmax`, or
still empty) is preserved by a row of the averaging loop, provided every
depth value is nonnegative. -/
theorem accumRow_inv (img : DepthImage) (dmax : ℚ) (yi x0 : Nat) (acc : ℚ × Nat)
    (k : Nat) (hpos : ∀ i, 0 ≤ img.data i)
    (hacc : (0 ≤ acc.1 ∧ acc.1 ≤ (acc.2 : ℚ) * dmax ∧ 1 ≤ acc.2) ∨ (acc.2 = 0 ∧ acc.1 = 0)) :
    (0 ≤ (accumRow img dmax yi x0 acc k).1 ∧
      (accumRow img dmax yi x0 acc k).1 ≤ ((accumRow img dmax yi x0 acc k).2 : ℚ) * dmax ∧
      1 ≤ (accumRow img dmax yi x0 acc k).2) ∨
    ((accumRow img dmax yi x0 acc k).2 = 0 ∧ (accumRow img dmax yi x0 acc k).1 = 0) := by
  induction k with
  | zero => exact hacc
  | succ k ih =>
    unfold accumRow
    simp only []
    split
    · next hv =>
      left
      have hv0 : 0 ≤ img.data (yi * img.stride + (x0 + k)) := hpos _
      rcases ih with ⟨h1, h2, h3⟩ | ⟨h1, h2⟩
      · refine ⟨by positivity, ?_, by omega⟩
        have hd : 0 ≤ dmax := le_trans hv0 hv
        push_cast
        nlinarith
      · rw [h1, h2]
        push_cast
        refine ⟨by linarith, by linarith, by trivial⟩
    · exact ih

/-- The accumulator invariant is preserved by the whole averaging loop. -/
theorem accumBox_inv (img : DepthImage) (dmax : ℚ) (x0 y0 w : Nat) (acc : ℚ × Nat)
    (k : Nat) (hpos : ∀ i, 0 ≤ img.data i)
    (hacc : (0 ≤ acc.1 ∧ acc.1 ≤ (acc.2 : ℚ) * dmax ∧ 1 ≤ acc.2) ∨ (acc.2 = 0 ∧ acc.1 = 0)) :
    (0 ≤ (accumBox img dmax x0 y0 w acc k).1 ∧
      (accumBox img dmax x0 y0 w acc k).1 ≤ ((accumBox img dmax x0 y0 w acc k).2 : ℚ) * dmax ∧
      1 ≤ (accumBox img dmax x0 y0 w acc k).2) ∨
    ((accumBox img dmax x0 y0 w acc k).2 = 0 ∧ (accumBox img dmax x0 y0 w acc k).1 = 0) := by
  induction k with
  | zero => exact hacc
  | succ k ih =>
    unfold accumBox
    exact accumRow_inv img dmax (y0 + k) x0 _ w hpos ih

/-- A row of the averaging loop never decreases the pixel count. -/
theorem accumRow_snd_mono (img : DepthImage) (dmax : ℚ) (yi x0 : Nat)
    (acc : ℚ × Nat) (k : Nat) :
    acc.2 ≤ (accumRow img dmax yi x0 acc k).2 := by
  induction k with
  | zero => exact le_refl _
  | succ k ih =>
    unfold accumRow
    simp only []
    split
    · exact le_trans ih (by omega)
    · exact ih

/-- The averaging loop never decreases the pixel count. -/
theorem accumBox_snd_mono (img : DepthImage) (dmax : ℚ) (x0 y0 w : Nat)
    (acc : ℚ × Nat) (k : Nat) :
    acc.2 ≤ (accumBox img dmax x0 y0 w acc k).2 := by
  induction k with
  | zero => exact le_refl _
  | succ k ih =>
    unfold accumBox
    exact le_trans ih (accumRow_snd_mono img dmax (y0 + k) x0 _ w)

/-- Without a valid pixel, a row of the averaging loop is the identity. -/
theorem accumRow_frame (img : DepthImage) (dmax : ℚ) (yi x0 : Nat)
    (acc : ℚ × Nat) (k : Nat)
    (h : ∀ t < k, ¬ img.data (yi * img.stride + (x0 + t)) ≤ dmax) :
    accumRow img dmax yi x0 acc k = acc := by
  induction k with
  | zero => rfl
  | succ k ih =>
    unfold accumRow
    simp only []
    rw [ih fun t ht => h t (by omega)]
    split
    · next hv => exact absurd hv (h k (by omega))
    · rfl

/-- Without any valid pixel, the averaging loop is the identity. -/
theorem accumBox_frame (img : DepthImage) (dmax : ℚ) (x0 y0 w : Nat)
    (acc : ℚ × Nat) (k : Nat)
    (h : ∀ u < k, ∀ t < w, ¬ img.data ((y0 + u) * img.stride + (x0 + t)) ≤ dmax) :
    accumBox img dmax x0 y0 w acc k = acc := by
  induction k with
  | zero => rfl
  | succ k ih =>
    unfold accumBox
    rw [ih fun u hu t ht => h u (by omega) t ht,
      accumRow_frame img dmax (y0 + k) x0 acc w fun t ht => h k (by omega) t ht]

/-- A valid pixel in a row strictly increases the pixel count. -/
theorem accumRow_snd_pos (img : DepthImage) (dmax : ℚ) (yi x0 : Nat)
    (acc : ℚ × Nat) (k t : Nat) (ht : t < k)
    (hv : img.data (yi * img.stride + (x0 + t)) ≤ dmax) :
    acc.2 < (accumRow img dmax yi x0 acc k).2 := by
  induction k with
  | zero => omega
  | succ k ih =>
    unfold accumRow
    simp only []
    by_cases htk : t = k
    · subst htk
      rw [if_pos hv]
      have := accumRow_snd_mono img dmax yi x0 acc t
      omega
    · have hlt := ih (by omega)
      split
      · omega
      · exact hlt

/-- A valid pixel anywhere in the clipped box strictly increases the pixel
count. -/
theorem accumBox_snd_pos (img : DepthImage) (dmax : ℚ) (x0 y0 w : Nat)
    (acc : ℚ × Nat) (k u t : Nat) (hu : u < k) (ht : t < w)
    (hv : img.data ((y0 + u) * img.stride + (x0 + t)) ≤ dmax) :
    acc.2 < (accumBox img dmax x0 y0 w acc k).2 := by
  induction k with
  | zero => omega
  | succ k ih =>
    unfold accumBox
    by_cases huk : u = k
    · subst huk
      exact lt_of_le_of_lt (accumBox_snd_mono img dmax x0 y0 w acc u)
        (accumRow_snd_pos img dmax (y0 + u) x0 _ w t ht hv)
    · exact lt_of_lt_of_le (ih (by omega))
        (accumRow_snd_mono img dmax (y0 + k) x0 _ w)

end BoxDepth

/-- C7 (amended): for a box with nonnegative corner and positive extent, on a
depth image whose values are nonnegative, `computeAverageDepthOfBoundingBox`
returns `-1` when the box lies entirely off-frame and when the clipped box
has no valid pixel (value `≤ dmax`), and otherwise a mean in `[0, dmax]`. -/
theorem computeAverageDepth_spec (box : Box2D) (img : DepthImage) (dmax : ℚ)
    (hw : 1 ≤ box.width) (hh : 1 ≤ box.height)
    (hbx : 0 ≤ box.x) (hby : 0 ≤ box.y)
    (hx64 : box.x < 2 ^ 64) (hy64 : box.y < 2 ^ 64)
    (hpos : ∀ i, 0 ≤ img.data i) :
    (((img.width : Int) ≤ box.x ∨ (img.height : Int) ≤ box.y) →
      BoxDepth.computeAverageDepthOfBoundingBox box img dmax = -1) ∧
    (box.x < (img.width : Int) → box.y < (img.height : Int) →
      (¬ BoxDepth.clippedBoxHasValidPixel box img dmax →
        BoxDepth.computeAverageDepthOfBoundingBox box img dmax = -1) ∧
      (BoxDepth.clippedBoxHasValidPixel box img dmax →
        0 ≤ BoxDepth.computeAverageDepthOfBoundingBox box img dmax ∧
        BoxDepth.computeAverageDepthOfBoundingBox box img dmax ≤ dmax)) := by
  have htoX : toSizeT box.x = box.x.toNat := toSizeT_eq_toNat _ hbx hx64
  have htoY : toSizeT box.y = box.y.toNat := toSizeT_eq_toNat _ hby hy64
  constructor
  · intro hoff
    unfold BoxDepth.computeAverageDepthOfBoundingBox
    rw [if_pos]
    rcases hoff with hW | hH
    · exact Or.inl (by rw [htoX]; omega)
    · exact Or.inr (Or.inl (by rw [htoY]; omega))
  · intro hxlt hylt
    have hcond : ¬(toSizeT box.x ≥ img.width ∨ toSizeT box.y ≥ img.height ∨
        box.x + box.width ≤ 0 ∨ box.y + box.height ≤ 0) := by
      push_neg
      refine ⟨by rw [htoX]; omega, by rw [htoY]; omega, by omega, by omega⟩
    have hres : BoxDepth.computeAverageDepthOfBoundingBox box img dmax =
        (let acc := BoxDepth.accumBox img dmax box.x.toNat box.y.toNat
          (min ((img.width : Int) - box.x) box.width).toNat (0, 0)
          (min ((img.height : Int) - box.y) box.height).toNat
         if acc.2 = 0 then -1 else acc.1 / (acc.2 : ℚ)) := by
      unfold BoxDepth.computeAverageDepthOfBoundingBox
      rw [if_neg hcond]
      simp only [max_eq_right hbx, max_eq_right hby]
    set BW := (min ((img.width : Int) - box.x) box.width).toNat with hBW
    set BH := (min ((img.height : Int) - box.y) box.height).toNat with hBH
    have hcorr : BoxDepth.clippedBoxHasValidPixel box img dmax ↔
        ∃ u < BH, ∃ t < BW,
          img.data ((box.y.toNat + u) * img.stride + (box.x.toNat + t)) ≤ dmax := by
      constructor
      · rintro ⟨xi, yi, ⟨ha1, ha2, ha3⟩, ⟨hb1, hb2, hb3⟩, hval⟩
        refine ⟨yi - box.y.toNat, by omega, xi - box.x.toNat, by omega, ?_⟩
        have hyi : box.y.toNat + (yi - box.y.toNat) = yi := by omega
        have hxi : box.x.toNat + (xi - box.x.toNat) = xi := by omega
        rw [hyi, hxi]
        exact hval
      · rintro ⟨u, hu, t, ht, hval⟩
        refine ⟨box.x.toNat + t, box.y.toNat + u,
          ⟨by omega, by omega, by omega⟩, ⟨by omega, by omega, by omega⟩, hval⟩
    constructor
    · intro hnone
      rw [hres]
      simp only []
      rw [BoxDepth.accumBox_frame img dmax box.x.toNat box.y.toNat BW (0, 0) BH ?_]
      · norm_num
      · intro u hu t ht hval
        exact hnone (hcorr.mpr ⟨u, hu, t, ht, hval⟩)
    · intro hsome
      obtain ⟨u, hu, t, ht, hval⟩ := hcorr.mp hsome
      have hcount : (0 : Nat) <
          (BoxDepth.accumBox img dmax box.x.toNat box.y.toNat BW (0, 0) BH).2 :=
        BoxDepth.accumBox_snd_pos img dmax box.x.toNat box.y.toNat BW (0, 0) BH u t
          hu ht hval
      have hinv := BoxDepth.accumBox_inv img dmax box.x.toNat box.y.toNat BW (0, 0) BH
        hpos (Or.inr ⟨rfl, rfl⟩)
      rcases hinv with ⟨h1, h2, h3⟩ | ⟨h1, h2⟩
      · rw [hres]
        simp only []
        rw [if_neg (by omega)]
        have hcpos : (0 : ℚ) <
            ((BoxDepth.accumBox img dmax box.x.toNat box.y.toNat BW (0, 0) BH).2 : ℚ) := by
          exact_mod_cast hcount
        constructor
        · exact div_nonneg h1 (le_of_lt hcpos)
        · rw [div_le_iff₀ hcpos]
          linarith [h2]
      · omega

unseal Rat.add Rat.sub Rat.mul Rat.inv in
/-- C7 counterexample: (i) a box whose left edge is negative but which covers
the single valid pixel of a 1x1 image still returns `-1` (the early-out
compares the signed `box.x` as `size_t`); (ii) with a negative depth value the
mean is negative, outside `[0, dmax]`.  Both refute the claim as stated. -/
theorem computeAverageDepth_counterexample :
    BoxDepth.computeAverageDepthOfBoundingBox ⟨-1, 0, 2, 1⟩
      ⟨1, 1, 1, fun _ => (1/2 : ℚ)⟩ 1 = -1 ∧
    BoxDepth.clippedBoxHasValidPixel ⟨-1, 0, 2, 1⟩ ⟨1, 1, 1, fun _ => (1/2 : ℚ)⟩ 1 ∧
    BoxDepth.computeAverageDepthOfBoundingBox ⟨0, 0, 1, 1⟩
      ⟨1, 1, 1, fun _ => (-4 : ℚ)⟩ 1 = -4 ∧
    BoxDepth.clippedBoxHasValidPixel ⟨0, 0, 1, 1⟩ ⟨1, 1, 1, fun _ => (-4 : ℚ)⟩ 1 ∧
    ¬((0 : ℚ) ≤ -4 ∧ (-4 : ℚ) ≤ 1) := by
  refine ⟨by decide, ⟨0, 0, ⟨by decide, by decide, by decide⟩,
    ⟨by decide, by decide, by decide⟩, by norm_num⟩, by decide,
    ⟨0, 0, ⟨by decide, by decide, by decide⟩, ⟨by decide, by decide, by decide⟩,
      by norm_num⟩, by norm_num⟩

unseal Rat.add Rat.sub Rat.mul Rat.inv in
/-- Witness for C7 (amended) at a concrete 1x1 image with one valid pixel. -/
theorem computeAverageDepth_spec_witness :
    (0 : ℚ) ≤ BoxDepth.computeAverageDepthOfBoundingBox ⟨0, 0, 1, 1⟩
      ⟨1, 1, 1, fun _ => (1/2 : ℚ)⟩ 1 ∧
    BoxDepth.computeAverageDepthOfBoundingBox ⟨0, 0, 1, 1⟩
      ⟨1, 1, 1, fun _ => (1/2 : ℚ)⟩ 1 ≤ 1 :=
  ((computeAverageDepth_spec ⟨0, 0, 1, 1⟩ ⟨1, 1, 1, fun _ => (1/2 : ℚ)⟩ 1
    (by decide) (by decide) (by decide) (by decide) (by decide) (by decide)
    (fun i => by norm_num)).2 (by decide) (by decide)).2
    ⟨0, 0, ⟨by decide, by decide, by decide⟩, ⟨by decide, by decide, by decide⟩,
      by norm_num⟩

/-! ## C8 — findHumans pairwise non-overlap -/

namespace HumanInstancing

/-- The inner merge loop never lengthens the list of subsequent boxes. -/
theorem mergeInner_len (cur : Box2D) (l : List Box2D) :
    (mergeInner cur l).2.1.length ≤ l.length := by
  induction l generalizing cur with
  | nil => exact le_refl _
  | cons b rest ih =>
    unfold mergeInner
    cases hov : cur.overlaps b
    · simp only [Bool.false_eq_true, if_false, List.length_cons]
      exact Nat.succ_le_succ (ih cur)
    · simp only [if_true, List.length_cons]
      exact le_trans (ih (cur.mergeWith b)) (by omega)

/-- If the inner merge loop merged something, the list of subsequent boxes
shrank strictly. -/
theorem mergeInner_len_lt (cur : Box2D) (l : List Box2D)
    (hm : (mergeInner cur l).2.2 = true) :
    (mergeInner cur l).2.1.length < l.length := by
  induction l generalizing cur with
  | nil => simp [mergeInner] at hm
  | cons b rest ih =>
    unfold mergeInner
    cases hov : cur.overlaps b
    · unfold mergeInner at hm
      rw [hov] at hm
      simp only [Bool.false_eq_true, if_false] at hm ⊢
      simp only [List.length_cons]
      exact Nat.succ_lt_succ (ih cur hm)
    · simp only [if_true, List.length_cons]
      exact Nat.lt_succ_of_le (mergeInner_len (cur.mergeWith b) rest)

/-- If the inner merge loop merged nothing, it is the identity and the
current box overlaps none of the subsequent boxes. -/
theorem mergeInner_no_merge (cur : Box2D) (l : List Box2D)
    (hm : (mergeInner cur l).2.2 = false) :
    mergeInner cur l = (cur, l, false) ∧ ∀ b ∈ l, cur.overlaps b = false := by
  induction l generalizing cur with
  | nil => exact ⟨rfl, by intro b hb; cases hb⟩
  | cons b rest ih =>
    unfold mergeInner at hm ⊢
    cases hov : cur.overlaps b
    · rw [hov] at hm
      simp only [Bool.false_eq_true, if_false] at hm ⊢
      obtain ⟨heq, hall⟩ := ih cur hm
      rw [heq]
      refine ⟨rfl, ?_⟩
      intro c hc
      rcases List.mem_cons.mp hc with hceq | hcrest
      · subst hceq
        exact hov
      · exact hall c hcrest
    · rw [hov] at hm
      simp at hm

/-- One merge pass never lengthens the list. -/
theorem mergePassGo_len (fuel : Nat) (l : List Box2D) :
    (mergePassGo fuel l).1.length ≤ l.length := by
  induction fuel generalizing l with
  | zero => exact le_refl _
  | succ fuel ih =>
    cases l with
    | nil => exact le_refl _
    | cons h t =>
      unfold mergePassGo
      simp only [List.length_cons]
      exact Nat.succ_le_succ
        (le_trans (ih (mergeInner h t).2.1) (mergeInner_len h t))

/-- A pass that merged something shrinks the list strictly. -/
theorem mergePassGo_len_lt (fuel : Nat) (l : List Box2D)
    (hfuel : l.length ≤ fuel) (hm : (mergePassGo fuel l).2 = true) :
    (mergePassGo fuel l).1.length < l.length := by
  induction fuel generalizing l with
  | zero => simp [mergePassGo] at hm
  | succ fuel ih =>
    cases l with
    | nil => simp [mergePassGo] at hm
    | cons h t =>
      unfold mergePassGo at hm ⊢
      simp only [] at hm ⊢
      cases hinner : (mergeInner h t).2.2
      · rw [hinner] at hm
        simp only [Bool.false_or] at hm
        obtain ⟨heq, _⟩ := mergeInner_no_merge h t hinner
        rw [heq] at hm ⊢
        simp only [List.length_cons, List.length_cons] at hfuel ⊢
        have := ih t (by omega) hm
        simpa using Nat.succ_lt_succ this
      · have h1 := mergeInner_len_lt h t hinner
        have h2 := mergePassGo_len fuel (mergeInner h t).2.1
        simp only [List.length_cons]
        omega

/-- A pass that merged nothing is the identity, and the list is pairwise
non-overlapping in the order the pass checked. -/
theorem mergePassGo_no_merge (fuel : Nat) (l : List Box2D)
    (hfuel : l.length ≤ fuel) (hm : (mergePassGo fuel l).2 = false) :
    (mergePassGo fuel l).1 = l ∧
      List.Pairwise (fun a b => a.overlaps b = false) l := by
  induction fuel generalizing l with
  | zero =>
    have : l = [] := List.length_eq_zero.mp (by omega)
    subst this
    exact ⟨rfl, List.Pairwise.nil⟩
  | succ fuel ih =>
    cases l with
    | nil => exact ⟨rfl, List.Pairwise.nil⟩
    | cons h t =>
      unfold mergePassGo at hm ⊢
      simp only [] at hm ⊢
      rw [Bool.or_eq_false_iff] at hm
      obtain ⟨hinner, hrest⟩ := hm
      obtain ⟨heq, hall⟩ := mergeInner_no_merge h t hinner
      rw [heq] at hrest ⊢
      simp only [] at hrest ⊢
      simp only [List.length_cons] at hfuel
      obtain ⟨heq2, hpair⟩ := ih t (by omega) hrest
      rw [heq2]
      exact ⟨rfl, List.Pairwise.cons hall hpair⟩

/-- The repeat-until-no-merge loop, given fuel exceeding the list length,
ends in a pairwise non-overlapping list. -/
theorem mergeLoop_pairwise (fuel : Nat) (l : List Box2D) (hfuel : l.length < fuel) :
    List.Pairwise (fun a b => a.overlaps b = false) (mergeLoop fuel l) := by
  induction fuel generalizing l with
  | zero => omega
  | succ fuel ih =>
    unfold mergeLoop mergePass
    simp only []
    cases hm : (mergePassGo l.length l).2
    · simp only [Bool.false_eq_true, if_false]
      obtain ⟨heq, hpair⟩ := mergePassGo_no_merge l.length l (le_refl _) hm
      rw [heq]
      exact hpair
    · simp only [if_true]
      have hlt := mergePassGo_len_lt l.length l (le_refl _) hm
      exact ih (mergePassGo l.length l).1 (by omega)

end HumanInstancing

/-- C8: the boxes returned by `findHumans` are pairwise non-overlapping under
the `overlaps` predicate, in the order the merge pass compares them. -/
theorem findHumans_pairwise (mask : SegmentationMask) (minimumConfidence : Nat) :
    List.Pairwise (fun a b => a.overlaps b = false)
      (HumanInstancing.findHumans mask minimumConfidence) := by
  unfold HumanInstancing.findHumans
  exact HumanInstancing.mergeLoop_pairwise _ _ (Nat.lt_succ_self _)
